import Mathlib

/-!
# uneven_planner / plan_manager: reference-path discretisation

A shallow embedding of `plan_manager.cpp`:

* the heading stage of `readPathFromCSV` (forward / central / backward differences),
* the "smooth yaw" pass of `PlanManager::rcvWpsCallBack`,
* the dual-resolution arc-length resampling loop, `total_len` and `total_time`,
* the `in_plan` gate of `PlanManager::rcvWpsCallBack`.

`double` is idealised as an arbitrary linearly ordered field `K` with exact arithmetic.
The library functions the code calls (`std::atan2`, the square root inside Eigen's
`norm()`) and the constant `M_PI` are parameters of the definitions, so every definition
is executable once `K` is instantiated; the theorems hold for every instantiation, in
particular for the real numbers with the true square root, `atan2` and `π`.

The idealisation agrees with the program where no operation rounds, overflows or meets a
signed zero. Rounding, signed zeros and infinities of IEEE-754 arithmetic are not modelled;
statements whose truth for the program hinges on them are marked "in exact arithmetic".
-/

namespace UnevenPlanner

/-! ## Data model -/

/-- Eigen::Vector2d, a pair of coordinates `x()`, `y()`. -/
@[ext]
structure Vector2d (K : Type) where
  x : K
  y : K

/-- Eigen::Vector3d, used by the planner as a pose: `x()`, `y()` and the yaw `z()`. -/
@[ext]
structure Vector3d (K : Type) where
  x : K
  y : K
  z : K

section Defs

variable {K : Type} [LinearOrderedField K]

instance : Add (Vector2d K) := ⟨fun a b => ⟨a.x + b.x, a.y + b.y⟩⟩

instance : Sub (Vector2d K) := ⟨fun a b => ⟨a.x - b.x, a.y - b.y⟩⟩

instance : HSMul K (Vector2d K) (Vector2d K) := ⟨fun c a => ⟨c * a.x, c * a.y⟩⟩

instance : Add (Vector3d K) := ⟨fun a b => ⟨a.x + b.x, a.y + b.y, a.z + b.z⟩⟩

instance : Sub (Vector3d K) := ⟨fun a b => ⟨a.x - b.x, a.y - b.y, a.z - b.z⟩⟩

instance : HSMul K (Vector3d K) (Vector3d K) := ⟨fun c a => ⟨c * a.x, c * a.y, c * a.z⟩⟩

/-- Eigen `v.head(2)`: the first two components. -/
def Vector3d.head2 (v : Vector3d K) : Vector2d K := ⟨v.x, v.y⟩

/-- Eigen `v.norm()` on a 2-vector; `sqrt` is the square-root function it calls. -/
def Vector2d.norm (sqrt : K → K) (v : Vector2d K) : K := sqrt (v.x * v.x + v.y * v.y)

/-! ## `readPathFromCSV`, lines 37-56: the heading stage -/

/-- The heading stage of `readPathFromCSV` (lines 37-56) on the parsed positions `path_xy`.
With fewer than two samples the code indexes `path_xy[1]` out of bounds (undefined
behaviour), modelled as `none`. Subtraction is exact and there is one zero; the `double`
differences of the code round and carry the sign of a zero into `atan2`. -/
def readPathFromCSV (atan2 : K → K → K) (path_xy : List (Vector2d K)) :
    Option (List (Vector3d K)) :=
  if h : 2 ≤ path_xy.length then
    let n := path_xy.length
    let forward_diff := path_xy[1] - path_xy[0]
    let start_point : Vector3d K :=
      ⟨path_xy[0].x, path_xy[0].y, atan2 forward_diff.y forward_diff.x⟩
    let middle : List (Vector3d K) := List.ofFn fun (j : Fin (n - 2)) =>
      have hj := j.isLt
      let i := j.val + 1
      let diff := path_xy[i + 1] - path_xy[i - 1]
      ⟨path_xy[i].x, path_xy[i].y, atan2 diff.y diff.x⟩
    let backward_diff := path_xy[n - 1] - path_xy[n - 2]
    let end_point : Vector3d K :=
      ⟨path_xy[n - 1].x, path_xy[n - 1].y, atan2 backward_diff.y backward_diff.x⟩
    some ([start_point] ++ middle ++ [end_point])
  else none

/-! ## "smooth yaw", lines 171-186 -/

/-- Lines 176-180: `while (dyaw >= M_PI / 2) { z -= M_PI * 2; dyaw = z - prev; }` where
`prev = init_path[i].z()` and `z = init_path[i+1].z()`; returns the final `z`. The constant
`M_PI` is the parameter `pi`; the loop is a total function because `pi` is positive. -/
def yawDown [FloorRing K] (pi : K) (hpi : 0 < pi) (prev z : K) : K :=
  if pi / 2 ≤ z - prev then yawDown pi hpi prev (z - pi * 2) else z
termination_by ⌈(z - prev) / (pi * 2)⌉.toNat
decreasing_by
  have h2 : 0 < pi * 2 := by positivity
  have e : (z - pi * 2 - prev) / (pi * 2) = (z - prev) / (pi * 2) - 1 := by
    field_simp; ring
  have hpos : 0 < (z - prev) / (pi * 2) := by
    apply div_pos _ h2
    have : 0 < pi / 2 := by positivity
    linarith
  have hc := Int.ceil_pos.mpr hpos
  rw [e, Int.ceil_sub_one]
  omega

/-- Lines 181-185: `while (dyaw <= -M_PI / 2) { z += M_PI * 2; dyaw = z - prev; }`. -/
def yawUp [FloorRing K] (pi : K) (hpi : 0 < pi) (prev z : K) : K :=
  if z - prev ≤ -pi / 2 then yawUp pi hpi prev (z + pi * 2) else z
termination_by ⌈(prev - z) / (pi * 2)⌉.toNat
decreasing_by
  have h2 : 0 < pi * 2 := by positivity
  have e : (prev - (z + pi * 2)) / (pi * 2) = (prev - z) / (pi * 2) - 1 := by
    field_simp; ring
  have hpos : 0 < (prev - z) / (pi * 2) := by
    apply div_pos _ h2
    have : 0 < pi / 2 := by positivity
    linarith
  have hc := Int.ceil_pos.mpr hpos
  rw [e, Int.ceil_sub_one]
  omega

/-- The body of the `for` loop of lines 173-186 for one index `i`: the first `while` loop,
then the second one, on the yaw of `init_path[i+1]`. Each shift by `M_PI * 2` is exact; in
`double` it rounds, so a heading that is shifted down and up again comes back changed in
its last bits. -/
def smoothStep [FloorRing K] (pi : K) (hpi : 0 < pi) (prev z : K) : K :=
  yawUp pi hpi prev (yawDown pi hpi prev z)

/-- The `for` loop of lines 173-186 from index `i` on: `prev` is `init_path[i]` (already
adjusted), the list holds `init_path[i+1], ...`; every pose is rewritten in place before it
serves as `prev` of the next pair. -/
def smoothYawFrom [FloorRing K] (pi : K) (hpi : 0 < pi) (prev : Vector3d K) :
    List (Vector3d K) → List (Vector3d K)
  | [] => []
  | q :: rest =>
    let q1 : Vector3d K := { q with z := smoothStep pi hpi prev.z q.z }
    q1 :: smoothYawFrom pi hpi q1 rest

/-- The "smooth yaw" pass of `rcvWpsCallBack` (lines 171-186) on `init_path`. An empty
`init_path` never reaches the pass (line 165 returns first); the model leaves it empty. -/
def smoothYaw [FloorRing K] (pi : K) (hpi : 0 < pi) : List (Vector3d K) → List (Vector3d K)
  | [] => []
  | p :: rest => p :: smoothYawFrom pi hpi p rest

/-! ## The resampling loop, lines 209-235 -/

/-- The loop variables of lines 209-214. -/
structure ResampleState (K : Type) where
  temp_len_yaw : K
  temp_len_pos : K
  total_len : K
  inner_xy_node : List (Vector2d K)
  inner_yaw_node : List K

/-- Lines 209-214: both accumulators and `total_len` start at `0.0`, both node vectors empty. -/
def ResampleState.init : ResampleState K := ⟨0, 0, 0, [], []⟩

/-- The two inner loops (lines 221-226 and 227-233) have one shape,
`while (temp_len > piece) { nodes.push_back(node(temp_len)); temp_len -= piece; }`,
and differ in the node they push; returns the final `temp_len` and `nodes`. The loop is a
total function because `piece` is positive (with `piece ≤ 0 < temp_len` the C++ loop would
not end). The subtraction is exact; in `double` it rounds, so the code can run the body once
more or once less than this function when `temp_len` comes within rounding of `piece`, and
does not leave the loop for an infinite `temp_len`. -/
def whilePush {α : Type} [FloorRing K] (piece : K) (hpiece : 0 < piece) (node : K → α)
    (temp_len : K) (nodes : List α) : K × List α :=
  if piece < temp_len then
    whilePush piece hpiece node (temp_len - piece) (nodes ++ [node temp_len])
  else (temp_len, nodes)
termination_by ⌈temp_len / piece⌉.toNat
decreasing_by
  have e : (temp_len - piece) / piece = temp_len / piece - 1 := by
    field_simp
  have hpos : 0 < temp_len / piece := div_pos (by linarith) hpiece
  have hc := Int.ceil_pos.mpr hpos
  rw [e, Int.ceil_sub_one]
  omega

/-- Line 223: `temp_yaw`, the heading pushed by the yaw loop on segment `p → q`, where
`p = init_path[k]`, `q = init_path[k+1]`. -/
def yawNode (p q : Vector3d K) (temp_seg piece_len_yaw temp_len_yaw : K) : K :=
  p.z + (1 - (temp_len_yaw - piece_len_yaw) / temp_seg) * (q - p).z

/-- Lines 229-230: `temp_node.head(2)`, the point pushed by the position loop. -/
def xyNode (p q : Vector3d K) (temp_seg piece_len temp_len_pos : K) : Vector2d K :=
  (p + (1 - (temp_len_pos - piece_len) / temp_seg) • (q - p)).head2

/-- Line 217: `temp_seg = (init_path[k+1] - init_path[k]).head(2).norm()`. -/
def tempSeg (sqrt : K → K) (p q : Vector3d K) : K := (q - p).head2.norm sqrt

/-- The `for` loop of lines 215-234 from index `k` on: `p` is `init_path[k]`, the list holds
`init_path[k+1], ...`. -/
def resampleFrom [FloorRing K] (sqrt : K → K) (piece_len yaw_piece_times : K)
    (hpl : 0 < piece_len) (hypt : 0 < yaw_piece_times) (p : Vector3d K) :
    List (Vector3d K) → ResampleState K → ResampleState K
  | [], s => s
  | q :: rest, s =>
    let piece_len_yaw := piece_len / yaw_piece_times
    let temp_seg := tempSeg sqrt p q
    let ry := whilePush piece_len_yaw (div_pos hpl hypt)
      (yawNode p q temp_seg piece_len_yaw) (s.temp_len_yaw + temp_seg) s.inner_yaw_node
    let rp := whilePush piece_len hpl
      (xyNode p q temp_seg piece_len) (s.temp_len_pos + temp_seg) s.inner_xy_node
    resampleFrom sqrt piece_len yaw_piece_times hpl hypt q rest
      ⟨ry.1, rp.1, s.total_len + temp_seg, rp.2, ry.2⟩

/-- Lines 209-234 of `rcvWpsCallBack` on `init_path`: the state after the resampling loop.
An empty `init_path` never reaches the loop (line 165 returns first); the model returns the
initial state for it. -/
def resample [FloorRing K] (sqrt : K → K) (piece_len yaw_piece_times : K)
    (hpl : 0 < piece_len) (hypt : 0 < yaw_piece_times) :
    List (Vector3d K) → ResampleState K
  | [] => ResampleState.init
  | p :: rest =>
    resampleFrom sqrt piece_len yaw_piece_times hpl hypt p rest ResampleState.init

/-- Line 235: `total_time = total_len / mean_vel * init_time_times`. -/
def totalTime (total_len mean_vel init_time_times : K) : K :=
  total_len / mean_vel * init_time_times

/-! ## One channel of the resampling loop, and the specification-side notions -/

/-- One channel of the `for` loop of lines 215-234 in isolation: its accumulator and its
node vector. `node p q temp_seg temp_len` is the value pushed on segment `p → q` when the
accumulator holds `temp_len`. The loop `resampleFrom` runs two such channels side by side
(`resample_eq` below). -/
def channelFrom {α : Type} [FloorRing K] (sqrt : K → K) (piece : K) (hpiece : 0 < piece)
    (node : Vector3d K → Vector3d K → K → K → α) (p : Vector3d K) :
    List (Vector3d K) → K → List α → K × List α
  | [], temp_len, nodes => (temp_len, nodes)
  | q :: rest, temp_len, nodes =>
    let r := whilePush piece hpiece (node p q (tempSeg sqrt p q))
      (temp_len + tempSeg sqrt p q) nodes
    channelFrom sqrt piece hpiece node q rest r.1 r.2

/-- One channel of the loop on the whole of `init_path`, from the initial values `0.0` and
the empty vector. -/
def channel {α : Type} [FloorRing K] (sqrt : K → K) (piece : K) (hpiece : 0 < piece)
    (node : Vector3d K → Vector3d K → K → K → α) : List (Vector3d K) → K × List α
  | [] => (0, [])
  | p :: rest => channelFrom sqrt piece hpiece node p rest 0 []

/-- The record of one entry into the body of an inner `while` loop: the segment
`init_path[k]`, `init_path[k+1]`, its length `temp_seg` and the accumulator `temp_len`. -/
structure Entry (K : Type) where
  p : Vector3d K
  q : Vector3d K
  temp_seg : K
  temp_len : K

/-- The interpolation parameter `1.0 - (temp_len - piece) / temp_seg` of lines 223 and 229
at a loop-body entry. -/
def Entry.t (piece : K) (e : Entry K) : K := 1 - (e.temp_len - piece) / e.temp_seg

/-- The number of iterations of `whilePush` from the accumulator value `temp_len`. -/
def pushCount [FloorRing K] (piece temp_len : K) : ℕ := (⌈temp_len / piece⌉ - 1).toNat

/-- Sum of the lengths of the segments `p → q₁ → q₂ → ...`. -/
def lengthFrom (sqrt : K → K) (p : Vector3d K) : List (Vector3d K) → K
  | [] => 0
  | q :: rest => tempSeg sqrt p q + lengthFrom sqrt q rest

/-- The total length of a polyline given by its positions only: the sum of the Euclidean
lengths of its consecutive segments. -/
def polylineLength (sqrt : K → K) (pts : List (Vector2d K)) : K :=
  (List.zipWith (fun a b => (b - a).norm sqrt) pts pts.tail).sum

/-- The point of a polyline at cumulative arc length `s` from its first sample: on the
first segment if `s` is less than its length, otherwise the point of the remaining polyline
at the remaining arc length; `none` at or beyond the final sample. -/
def pointAtArcLength (sqrt : K → K) : List (Vector2d K) → K → Option (Vector2d K)
  | a :: b :: rest, s =>
    if s < (b - a).norm sqrt then some (a + (s / (b - a).norm sqrt) • (b - a))
    else pointAtArcLength sqrt (b :: rest) (s - (b - a).norm sqrt)
  | _, _ => none

end Defs

/-! ## The `in_plan` gate of `rcvWpsCallBack` -/

/-- The state the gate is about: the member `in_plan` and the number of calls of
`traj_opt.optimizeSE2Traj` made so far. -/
structure PlanState where
  in_plan : Bool
  optimizer_calls : Nat
deriving DecidableEq

/-- Lines 139-142: `if (in_plan || !uneven_map->mapReady()) return; in_plan = true;`.
The Boolean tells whether the trigger passed the gate. -/
def gate (mapReady : Bool) (s : PlanState) : Bool × PlanState :=
  if s.in_plan || !mapReady then (false, s) else (true, { s with in_plan := true })

/-- Lines 165-169 and 247-248, for a trigger that passed the gate: an empty `init_path`
resets `in_plan` and returns, otherwise the optimizer is called once. -/
def runOptimizer (pathEmpty : Bool) (s : PlanState) : Bool × PlanState :=
  if pathEmpty then (false, { s with in_plan := false })
  else (true, { s with optimizer_calls := s.optimizer_calls + 1 })

/-- Line 315: `in_plan = false;` at the end of the pipeline. -/
def finish (s : PlanState) : PlanState := { s with in_plan := false }

/-- One whole call of `rcvWpsCallBack`, run to completion. -/
def rcvWpsCallBack (mapReady pathEmpty : Bool) (s : PlanState) : PlanState :=
  match gate mapReady s with
  | (false, s1) => s1
  | (true, s1) =>
    match runOptimizer pathEmpty s1 with
    | (false, s2) => s2
    | (true, s2) => finish s2

/-! ## Elementary facts -/
section Basic
variable {K : Type} [LinearOrderedField K]

theorem polylineLength_cons (sqrt : K → K) (rest : List (Vector3d K)) :
    ∀ p : Vector3d K,
      polylineLength sqrt ((p :: rest).map Vector3d.head2) = lengthFrom sqrt p rest := by
  induction rest with
  | nil => intro p; simp [polylineLength, lengthFrom]
  | cons q rest ih =>
    intro p
    have := ih q
    simp only [polylineLength, List.map_cons, List.tail_cons, List.zipWith_cons_cons,
      List.sum_cons, lengthFrom] at this ⊢
    rw [this]
    rfl

theorem pointAtArcLength_cons_cons (sqrt : K → K) (p q : Vector3d K)
    (rest : List (Vector3d K)) (s : K) :
    pointAtArcLength sqrt ((p :: q :: rest).map Vector3d.head2) s =
      if s < tempSeg sqrt p q then
        some (p.head2 + (s / tempSeg sqrt p q) • (q.head2 - p.head2))
      else pointAtArcLength sqrt ((q :: rest).map Vector3d.head2) (s - tempSeg sqrt p q) := by
  simp only [List.map_cons, pointAtArcLength]
  rfl

end Basic

/-! ## Lemmas on the two yaw loops -/
section YawLemmas
variable {K : Type} [LinearOrderedField K] [FloorRing K]

theorem yawDown_spec (pi : K) (hpi : 0 < pi) (prev z : K) :
    yawDown pi hpi prev z - prev < pi / 2 ∧
    (yawDown pi hpi prev z = z ∨ -(3 * pi / 2) ≤ yawDown pi hpi prev z - prev) ∧
    ∃ n : ℕ, yawDown pi hpi prev z = z - n * (2 * pi) := by
  induction z using yawDown.induct pi hpi prev with
  | case1 z h ih =>
    rw [yawDown, if_pos h]
    obtain ⟨h1, h2, n, hn⟩ := ih
    refine ⟨h1, Or.inr ?_, n + 1, ?_⟩
    · rcases h2 with h2 | h2
      · rw [h2]; linarith
      · exact h2
    · rw [hn]; push_cast; ring
  | case2 z h =>
    rw [yawDown, if_neg h]
    exact ⟨lt_of_not_le h, Or.inl rfl, 0, by simp⟩

theorem yawUp_spec (pi : K) (hpi : 0 < pi) (prev z : K) :
    -pi / 2 < yawUp pi hpi prev z - prev ∧
    (yawUp pi hpi prev z = z ∨ yawUp pi hpi prev z - prev ≤ 3 * pi / 2) ∧
    ∃ n : ℕ, yawUp pi hpi prev z = z + n * (2 * pi) := by
  induction z using yawUp.induct pi hpi prev with
  | case1 z h ih =>
    rw [yawUp, if_pos h]
    obtain ⟨h1, h2, n, hn⟩ := ih
    refine ⟨h1, Or.inr ?_, n + 1, ?_⟩
    · rcases h2 with h2 | h2
      · rw [h2]; linarith
      · exact h2
    · rw [hn]; push_cast; ring
  | case2 z h =>
    rw [yawUp, if_neg h]
    exact ⟨lt_of_not_le h, Or.inl rfl, 0, by simp⟩

/-- One step of the pass: the new yaw differs from the old one by a whole number of turns
and its difference to the previous yaw lies in `(-π/2, 3π/2]`. -/
theorem smoothStep_spec (pi : K) (hpi : 0 < pi) (prev z : K) :
    -pi / 2 < smoothStep pi hpi prev z - prev ∧
    smoothStep pi hpi prev z - prev ≤ 3 * pi / 2 ∧
    ∃ k : ℤ, smoothStep pi hpi prev z = z + k * (2 * pi) := by
  unfold smoothStep
  obtain ⟨d1, _, n, hn⟩ := yawDown_spec pi hpi prev z
  obtain ⟨u1, u2, m, hm⟩ := yawUp_spec pi hpi prev (yawDown pi hpi prev z)
  refine ⟨u1, ?_, (m : ℤ) - n, ?_⟩
  · rcases u2 with u2 | u2
    · rw [u2]; linarith
    · exact u2
  · rw [hm, hn]; push_cast; ring

end YawLemmas

/-! ## Lemmas on the "smooth yaw" pass -/
section SmoothYawLemmas
variable {K : Type} [LinearOrderedField K] [FloorRing K]

theorem smoothYawFrom_forall₂ (pi : K) (hpi : 0 < pi) (rest : List (Vector3d K)) :
    ∀ prev : Vector3d K, List.Forall₂
      (fun p q : Vector3d K => q.x = p.x ∧ q.y = p.y ∧ ∃ k : ℤ, q.z = p.z + k * (2 * pi))
      rest (smoothYawFrom pi hpi prev rest) := by
  induction rest with
  | nil => intro prev; exact List.Forall₂.nil
  | cons q rest ih =>
    intro prev
    simp only [smoothYawFrom]
    exact List.Forall₂.cons ⟨rfl, rfl, (smoothStep_spec pi hpi prev.z q.z).2.2⟩ (ih _)

theorem smoothYawFrom_length (pi : K) (hpi : 0 < pi) (rest : List (Vector3d K))
    (prev : Vector3d K) : (smoothYawFrom pi hpi prev rest).length = rest.length :=
  (smoothYawFrom_forall₂ pi hpi rest prev).length_eq.symm

theorem smoothYaw_length (pi : K) (hpi : 0 < pi) (path : List (Vector3d K)) :
    (smoothYaw pi hpi path).length = path.length := by
  cases path with
  | nil => rfl
  | cons p rest => simp [smoothYaw, smoothYawFrom_length]

end SmoothYawLemmas

/-! ## The "smooth yaw" pass: evaluation and claim C1 -/
section YawEval
variable {K : Type} [LinearOrderedField K] [FloorRing K]

theorem yawDown_of_lt (pi : K) (hpi : 0 < pi) (prev z : K) (h : z - prev < pi / 2) :
    yawDown pi hpi prev z = z := by
  rw [yawDown, if_neg (not_le.mpr h)]

theorem yawUp_of_lt (pi : K) (hpi : 0 < pi) (prev z : K) (h : -pi / 2 < z - prev) :
    yawUp pi hpi prev z = z := by
  rw [yawUp, if_neg (not_le.mpr h)]

theorem yawUp_of_le (pi : K) (hpi : 0 < pi) (prev z : K) (h : z - prev ≤ -pi / 2) :
    yawUp pi hpi prev z = yawUp pi hpi prev (z + pi * 2) := by
  rw [yawUp, if_pos h]

end YawEval

/-- The scenario of the yaw-wrap example: previous heading `3.0`, raw heading `-3.0`;
the second loop runs once. -/
theorem smoothStep_three : smoothStep Real.pi Real.pi_pos 3 (-3) = -3 + Real.pi * 2 := by
  have h3 := Real.pi_gt_three
  have h4 := Real.pi_le_four
  unfold smoothStep
  rw [yawDown_of_lt _ _ _ _ (by linarith), yawUp_of_le _ _ _ _ (by linarith),
    yawUp_of_lt _ _ _ _ (by linarith)]

section Claims
variable {K : Type} [LinearOrderedField K] [FloorRing K]

/-- In exact arithmetic (for `double` the last part fails by rounding: with previous
heading `0` and raw heading `1.6` the code computes `(1.6 - 2π) + 2π` in `double`, which is
not `1.6`): the "smooth yaw" pass keeps the number of poses, leaves every position `(x, y)`
unchanged, leaves the pose at index 0 unchanged, and every output heading is the input
heading plus an integer multiple of `2π`. -/
theorem smoothYaw_whole_turns_exact (pi : K) (hpi : 0 < pi) (path : List (Vector3d K)) :
    (smoothYaw pi hpi path).length = path.length ∧
    (∀ (i : ℕ) (hi : i < path.length) (ho : i < (smoothYaw pi hpi path).length),
      (smoothYaw pi hpi path)[i].x = path[i].x ∧ (smoothYaw pi hpi path)[i].y = path[i].y ∧
      ∃ k : ℤ, (smoothYaw pi hpi path)[i].z = path[i].z + k * (2 * pi)) ∧
    (smoothYaw pi hpi path).head? = path.head? := by
  refine ⟨smoothYaw_length pi hpi path, ?_, ?_⟩
  · intro i hi ho
    cases path with
    | nil => simp at hi
    | cons p rest =>
      cases i with
      | zero => simp [smoothYaw]
      | succ i =>
        simp only [smoothYaw, List.getElem_cons_succ]
        exact (smoothYawFrom_forall₂ pi hpi rest p).get _ _
  · cases path with
    | nil => rfl
    | cons p rest => rfl

/-- The yaw-wrap scenario: raw headings `[3.0, -3.0]` come out as `[3.0, -3.0 + 2π]`, one
`+2π` correction, and the corrected heading is `3.28318...`. -/
theorem smoothYaw_whole_turns_exact_scenario :
    (0 : ℝ) < Real.pi ∧
    smoothYaw Real.pi Real.pi_pos [⟨0, 0, 3⟩, ⟨1, 0, -3⟩]
      = [⟨0, 0, 3⟩, ⟨1, 0, -3 + 2 * Real.pi⟩] ∧
    ((3.28318 : ℝ) < -3 + 2 * Real.pi ∧ -3 + 2 * Real.pi < (3.28319 : ℝ)) ∧
    ((smoothYaw Real.pi Real.pi_pos [⟨0, 0, 3⟩, ⟨1, 0, -3⟩]).length
        = [(⟨0, 0, 3⟩ : Vector3d ℝ), ⟨1, 0, -3⟩].length ∧
      (∀ (i : ℕ) (hi : i < [(⟨0, 0, 3⟩ : Vector3d ℝ), ⟨1, 0, -3⟩].length)
        (ho : i < (smoothYaw Real.pi Real.pi_pos [⟨0, 0, 3⟩, ⟨1, 0, -3⟩]).length),
        (smoothYaw Real.pi Real.pi_pos [⟨0, 0, 3⟩, ⟨1, 0, -3⟩])[i].x
            = [(⟨0, 0, 3⟩ : Vector3d ℝ), ⟨1, 0, -3⟩][i].x ∧
          (smoothYaw Real.pi Real.pi_pos [⟨0, 0, 3⟩, ⟨1, 0, -3⟩])[i].y
            = [(⟨0, 0, 3⟩ : Vector3d ℝ), ⟨1, 0, -3⟩][i].y ∧
          ∃ k : ℤ, (smoothYaw Real.pi Real.pi_pos [⟨0, 0, 3⟩, ⟨1, 0, -3⟩])[i].z
            = [(⟨0, 0, 3⟩ : Vector3d ℝ), ⟨1, 0, -3⟩][i].z + k * (2 * Real.pi)) ∧
      (smoothYaw Real.pi Real.pi_pos [⟨0, 0, 3⟩, ⟨1, 0, -3⟩]).head?
        = [(⟨0, 0, 3⟩ : Vector3d ℝ), ⟨1, 0, -3⟩].head?) := by
  refine ⟨Real.pi_pos, ?_, ⟨?_, ?_⟩,
    smoothYaw_whole_turns_exact Real.pi Real.pi_pos [⟨0, 0, 3⟩, ⟨1, 0, -3⟩]⟩
  · simp only [smoothYaw, smoothYawFrom, smoothStep_three]
    rw [mul_comm Real.pi 2]
  · have := Real.pi_gt_d6
    linarith
  · have := Real.pi_lt_d6
    linarith

end Claims

/-! ## Closed form of the inner `while` loop -/
section WhileLemmas
variable {K : Type} [LinearOrderedField K] [FloorRing K]

theorem pushCount_of_lt (piece : K) (hpiece : 0 < piece) (temp_len : K)
    (h : piece < temp_len) :
    pushCount piece temp_len = pushCount piece (temp_len - piece) + 1 := by
  unfold pushCount
  have e : (temp_len - piece) / piece = temp_len / piece - 1 := by field_simp
  have h1 : (1 : K) < temp_len / piece := by rwa [lt_div_iff₀ hpiece, one_mul]
  have h2 : (1 : ℤ) < ⌈temp_len / piece⌉ := by
    rw [Int.lt_ceil]; exact_mod_cast h1
  rw [e, Int.ceil_sub_one]
  omega

theorem pushCount_of_not_lt (piece : K) (hpiece : 0 < piece) (temp_len : K)
    (h : ¬ piece < temp_len) : pushCount piece temp_len = 0 := by
  unfold pushCount
  have h1 : temp_len / piece ≤ 1 := by rw [div_le_iff₀ hpiece, one_mul]; exact not_lt.mp h
  have h2 : ⌈temp_len / piece⌉ ≤ 1 := by
    rw [Int.ceil_le]; exact_mod_cast h1
  omega

/-- Closed form of the inner `while` loop. -/
theorem whilePush_eq {α : Type} (piece : K) (hpiece : 0 < piece) (node : K → α)
    (temp_len : K) (nodes : List α) :
    whilePush piece hpiece node temp_len nodes =
      (temp_len - pushCount piece temp_len * piece,
        nodes ++ (List.range (pushCount piece temp_len)).map
          (fun i : ℕ => node (temp_len - (i : K) * piece))) := by
  induction temp_len, nodes using whilePush.induct piece hpiece node with
  | case1 temp_len nodes h ih =>
    rw [whilePush, if_pos h, ih, pushCount_of_lt piece hpiece temp_len h]
    refine Prod.ext ?_ ?_
    · simp only; push_cast; ring
    · simp only [List.range_succ_eq_map, List.map_cons, List.map_map, List.append_assoc,
        List.singleton_append]
      congr 2
      · simp
      · apply List.map_congr_left
        intro i _
        simp only [Function.comp]
        congr 1
        push_cast; ring
  | case2 temp_len nodes h =>
    rw [whilePush, if_neg h, pushCount_of_not_lt piece hpiece temp_len h]
    simp

theorem pushCount_le (piece : K) (hpiece : 0 < piece) (temp_len : K) :
    temp_len - pushCount piece temp_len * piece ≤ piece := by
  unfold pushCount
  by_cases hc : 1 ≤ ⌈temp_len / piece⌉
  · have e : (((⌈temp_len / piece⌉ - 1).toNat : ℕ) : K) = (⌈temp_len / piece⌉ : K) - 1 := by
      have : (((⌈temp_len / piece⌉ - 1).toNat : ℕ) : ℤ) = ⌈temp_len / piece⌉ - 1 :=
        Int.toNat_of_nonneg (by omega)
      exact_mod_cast congrArg (fun z : ℤ => (z : K)) this
    rw [e]
    have := Int.le_ceil (temp_len / piece)
    rw [div_le_iff₀ hpiece] at this
    linarith
  · have hle : ⌈temp_len / piece⌉ ≤ 0 := by omega
    have h1 : temp_len / piece ≤ 0 := by
      have := Int.ceil_le.mp hle; exact_mod_cast this
    have h2 : temp_len ≤ 0 := by
      rw [div_le_iff₀ hpiece] at h1; linarith
    have : (⌈temp_len / piece⌉ - 1).toNat = 0 := by omega
    rw [this]; simp; linarith

theorem lt_of_lt_pushCount (piece : K) (hpiece : 0 < piece) (temp_len : K) (i : ℕ)
    (hi : i < pushCount piece temp_len) : piece < temp_len - i * piece := by
  unfold pushCount at hi
  have h1 : ((i : ℤ) + 1) < ⌈temp_len / piece⌉ := by omega
  rw [Int.lt_ceil] at h1
  rw [lt_div_iff₀ hpiece] at h1
  push_cast at h1
  linarith

end WhileLemmas

/-! ## One channel of the resampling loop -/
section ChannelLemmas
variable {K : Type} [LinearOrderedField K] [FloorRing K]

theorem channelFrom_cons {α : Type} (sqrt : K → K) (piece : K) (hpiece : 0 < piece)
    (node : Vector3d K → Vector3d K → K → K → α) (p q : Vector3d K)
    (rest : List (Vector3d K)) (temp_len : K) (nodes : List α) :
    channelFrom sqrt piece hpiece node p (q :: rest) temp_len nodes =
      channelFrom sqrt piece hpiece node q rest
        (temp_len + tempSeg sqrt p q
          - pushCount piece (temp_len + tempSeg sqrt p q) * piece)
        (nodes ++ (List.range (pushCount piece (temp_len + tempSeg sqrt p q))).map
          (fun i : ℕ => node p q (tempSeg sqrt p q)
            (temp_len + tempSeg sqrt p q - (i : K) * piece))) := by
  simp only [channelFrom, whilePush_eq]

theorem channelFrom_append {α : Type} (sqrt : K → K) (piece : K) (hpiece : 0 < piece)
    (node : Vector3d K → Vector3d K → K → K → α) (rest : List (Vector3d K)) :
    ∀ (p : Vector3d K) (temp_len : K) (nodes : List α),
    channelFrom sqrt piece hpiece node p rest temp_len nodes =
      ((channelFrom sqrt piece hpiece node p rest temp_len []).1,
        nodes ++ (channelFrom sqrt piece hpiece node p rest temp_len []).2) := by
  induction rest with
  | nil => intro p temp_len nodes; simp [channelFrom]
  | cons q rest ih =>
    intro p temp_len nodes
    rw [channelFrom_cons, channelFrom_cons, ih, ih q _ ([] ++ _)]
    simp

theorem channelFrom_map {α β : Type} (f : α → β) (sqrt : K → K) (piece : K)
    (hpiece : 0 < piece) (node : Vector3d K → Vector3d K → K → K → α)
    (rest : List (Vector3d K)) :
    ∀ (p : Vector3d K) (temp_len : K) (nodes : List α),
    channelFrom sqrt piece hpiece (fun p q s l => f (node p q s l)) p rest temp_len
        (nodes.map f) =
      ((channelFrom sqrt piece hpiece node p rest temp_len nodes).1,
        (channelFrom sqrt piece hpiece node p rest temp_len nodes).2.map f) := by
  induction rest with
  | nil => intro p temp_len nodes; simp [channelFrom]
  | cons q rest ih =>
    intro p temp_len nodes
    rw [channelFrom_cons, channelFrom_cons, ← ih]
    simp [Function.comp_def]

theorem channel_map {α β : Type} (f : α → β) (sqrt : K → K) (piece : K)
    (hpiece : 0 < piece) (node : Vector3d K → Vector3d K → K → K → α)
    (path : List (Vector3d K)) :
    channel sqrt piece hpiece (fun p q s l => f (node p q s l)) path =
      ((channel sqrt piece hpiece node path).1,
        (channel sqrt piece hpiece node path).2.map f) := by
  cases path with
  | nil => simp [channel]
  | cons p rest => simpa [channel] using channelFrom_map f sqrt piece hpiece node rest p 0 []

/-- The bookkeeping invariant of a channel: the accumulator is the arc length walked minus
`piece` times the number of nodes pushed, and it stays in `[0, piece]`. -/
theorem channelFrom_inv {α : Type} (sqrt : K → K) (hs : ∀ x, 0 ≤ sqrt x) (piece : K)
    (hpiece : 0 < piece) (node : Vector3d K → Vector3d K → K → K → α)
    (rest : List (Vector3d K)) :
    ∀ (p : Vector3d K) (temp_len : K), 0 ≤ temp_len → temp_len ≤ piece →
      (channelFrom sqrt piece hpiece node p rest temp_len []).1 =
          temp_len + lengthFrom sqrt p rest
            - (channelFrom sqrt piece hpiece node p rest temp_len []).2.length * piece ∧
        0 ≤ (channelFrom sqrt piece hpiece node p rest temp_len []).1 ∧
        (channelFrom sqrt piece hpiece node p rest temp_len []).1 ≤ piece ∧
        ((0 < temp_len ∨ 0 < (channelFrom sqrt piece hpiece node p rest temp_len []).2.length) →
          0 < (channelFrom sqrt piece hpiece node p rest temp_len []).1) := by
  induction rest with
  | nil =>
    intro p temp_len h0 h1
    simp only [channelFrom, lengthFrom, List.length_nil, Nat.cast_zero, zero_mul, add_zero,
      sub_zero, true_and]
    refine ⟨h0, h1, ?_⟩
    rintro (h | h)
    · exact h
    · exact absurd h (lt_irrefl _)
  | cons q rest ih =>
    intro p temp_len h0 h1
    have hseg : 0 ≤ tempSeg sqrt p q := hs _
    rw [channelFrom_cons, channelFrom_append]
    set n := pushCount piece (temp_len + tempSeg sqrt p q) with hn
    set a1 := temp_len + tempSeg sqrt p q - n * piece with ha1
    have ha1_le : a1 ≤ piece := pushCount_le piece hpiece _
    have ha1_pos : 0 < n → 0 < a1 := by
      intro hpos
      have := lt_of_lt_pushCount piece hpiece (temp_len + tempSeg sqrt p q) (n - 1)
        (by omega)
      have e : ((n - 1 : ℕ) : K) = (n : K) - 1 := by
        rw [Nat.cast_sub (by omega)]; simp
      rw [e] at this
      rw [ha1]; linarith
    have ha1_nn : 0 ≤ a1 := by
      rcases Nat.eq_zero_or_pos n with h | h
      · rw [ha1, h]; simp; linarith
      · exact (ha1_pos h).le
    obtain ⟨e1, e2, e3, e4⟩ := ih q a1 ha1_nn ha1_le
    simp only [List.nil_append, List.length_append, List.length_map, List.length_range,
      lengthFrom]
    refine ⟨?_, e2, e3, ?_⟩
    · rw [e1, ha1]; push_cast; ring
    · intro h
      apply e4
      by_cases hlen : 0 < (channelFrom sqrt piece hpiece node q rest a1 []).2.length
      · exact Or.inr hlen
      · left
        rcases Nat.eq_zero_or_pos n with h' | h'
        · rcases h with h | h
          · rw [ha1, h']; simp; linarith
          · omega
        · exact ha1_pos h'

end ChannelLemmas

/-! ## The resampling loop as two channels; node count and loop-body entries -/
section ResampleLemmas
variable {K : Type} [LinearOrderedField K] [FloorRing K]

theorem resampleFrom_eq (sqrt : K → K) (piece_len yaw_piece_times : K)
    (hpl : 0 < piece_len) (hypt : 0 < yaw_piece_times) (rest : List (Vector3d K)) :
    ∀ (p : Vector3d K) (s : ResampleState K),
    resampleFrom sqrt piece_len yaw_piece_times hpl hypt p rest s =
      ⟨(channelFrom sqrt (piece_len / yaw_piece_times) (div_pos hpl hypt)
          (fun p q seg len => yawNode p q seg (piece_len / yaw_piece_times) len)
          p rest s.temp_len_yaw s.inner_yaw_node).1,
        (channelFrom sqrt piece_len hpl (fun p q seg len => xyNode p q seg piece_len len)
          p rest s.temp_len_pos s.inner_xy_node).1,
        s.total_len + lengthFrom sqrt p rest,
        (channelFrom sqrt piece_len hpl (fun p q seg len => xyNode p q seg piece_len len)
          p rest s.temp_len_pos s.inner_xy_node).2,
        (channelFrom sqrt (piece_len / yaw_piece_times) (div_pos hpl hypt)
          (fun p q seg len => yawNode p q seg (piece_len / yaw_piece_times) len)
          p rest s.temp_len_yaw s.inner_yaw_node).2⟩ := by
  induction rest with
  | nil => intro p s; simp [resampleFrom, channelFrom, lengthFrom]
  | cons q rest ih =>
    intro p s
    simp only [resampleFrom, channelFrom, lengthFrom, ih, add_assoc]

/-- The resampling loop is two independent channels and the running sum `total_len`. -/
theorem resample_eq (sqrt : K → K) (piece_len yaw_piece_times : K)
    (hpl : 0 < piece_len) (hypt : 0 < yaw_piece_times) (path : List (Vector3d K)) :
    resample sqrt piece_len yaw_piece_times hpl hypt path =
      ⟨(channel sqrt (piece_len / yaw_piece_times) (div_pos hpl hypt)
          (fun p q seg len => yawNode p q seg (piece_len / yaw_piece_times) len) path).1,
        (channel sqrt piece_len hpl (fun p q seg len => xyNode p q seg piece_len len) path).1,
        polylineLength sqrt (path.map Vector3d.head2),
        (channel sqrt piece_len hpl (fun p q seg len => xyNode p q seg piece_len len) path).2,
        (channel sqrt (piece_len / yaw_piece_times) (div_pos hpl hypt)
          (fun p q seg len => yawNode p q seg (piece_len / yaw_piece_times) len) path).2⟩ := by
  cases path with
  | nil => simp [resample, channel, ResampleState.init, polylineLength]
  | cons p rest =>
    rw [polylineLength_cons]
    simp [resample, channel, ResampleState.init, resampleFrom_eq]

/-- Node count of a channel: the `j`-th node (from 0) exists exactly when `(j+1) * piece`
is less than the total path length. -/
theorem channel_count {α : Type} (sqrt : K → K) (hs : ∀ x, 0 ≤ sqrt x) (piece : K)
    (hpiece : 0 < piece) (node : Vector3d K → Vector3d K → K → K → α)
    (path : List (Vector3d K)) (j : ℕ) :
    j < (channel sqrt piece hpiece node path).2.length ↔
      ((j : K) + 1) * piece < polylineLength sqrt (path.map Vector3d.head2) := by
  cases path with
  | nil => simp [channel, polylineLength]; positivity
  | cons p rest =>
    rw [polylineLength_cons]
    simp only [channel]
    obtain ⟨e1, e2, e3, e4⟩ :=
      channelFrom_inv sqrt hs piece hpiece node rest p 0 le_rfl hpiece.le
    set c := channelFrom sqrt piece hpiece node p rest 0 [] with hc
    rw [zero_add] at e1
    constructor
    · intro hj
      have hpos : 0 < c.1 := e4 (Or.inr (by omega))
      have hjl : ((j : K) + 1) ≤ (c.2.length : K) := by exact_mod_cast hj
      have := mul_le_mul_of_nonneg_right hjl hpiece.le
      linarith
    · intro hj
      by_contra hcon
      have hjl : (c.2.length : K) ≤ (j : K) := by exact_mod_cast not_lt.mp hcon
      have := mul_le_mul_of_nonneg_right hjl hpiece.le
      linarith

/-- Every entry into the body of an inner `while` loop happens on a segment of positive
length, with `piece < temp_len` and `temp_len - piece ≤ temp_seg`. -/
theorem channelFrom_entries (sqrt : K → K) (piece : K) (hpiece : 0 < piece)
    (rest : List (Vector3d K)) :
    ∀ (p : Vector3d K) (temp_len : K), temp_len ≤ piece →
      ∀ e ∈ (channelFrom sqrt piece hpiece Entry.mk p rest temp_len []).2,
        e.temp_seg = tempSeg sqrt e.p e.q ∧ 0 < e.temp_seg ∧ piece < e.temp_len ∧
          e.temp_len - piece ≤ e.temp_seg := by
  induction rest with
  | nil => intro p temp_len _ e he; simp [channelFrom] at he
  | cons q rest ih =>
    intro p temp_len h1 e he
    rw [channelFrom_cons, channelFrom_append] at he
    simp only [List.nil_append, List.mem_append, List.mem_map, List.mem_range] at he
    rcases he with ⟨i, hi, rfl⟩ | he
    · have h := lt_of_lt_pushCount piece hpiece _ i hi
      have hi0 : (0 : K) ≤ (i : K) * piece := by positivity
      refine ⟨rfl, ?_, h, ?_⟩
      · simp only; linarith
      · simp only; linarith
    · exact ih q _ (pushCount_le piece hpiece _) e he


end ResampleLemmas

/-! ## Placement of the position nodes -/
section PosNodes
variable {K : Type} [LinearOrderedField K] [FloorRing K]

/-- The position channel pushes, as its `j`-th node (from 0), the point of the polyline at
arc length `(j+1) * piece - temp_len` from `p`, where `temp_len` is the initial accumulator. -/
theorem channelFrom_pos_nodes (sqrt : K → K) (piece : K) (hpiece : 0 < piece)
    (rest : List (Vector3d K)) :
    ∀ (p : Vector3d K) (temp_len : K), temp_len ≤ piece → ∀ (j : ℕ) (x : Vector2d K),
      (channelFrom sqrt piece hpiece (fun p q seg len => xyNode p q seg piece len)
          p rest temp_len []).2[j]? = some x →
      pointAtArcLength sqrt ((p :: rest).map Vector3d.head2)
          (((j : K) + 1) * piece - temp_len) = some x := by
  induction rest with
  | nil => intro p temp_len _ j x hx; simp [channelFrom] at hx
  | cons q rest ih =>
    intro p temp_len h1 j x hx
    rw [channelFrom_cons, channelFrom_append] at hx
    simp only [List.nil_append] at hx
    set n := pushCount piece (temp_len + tempSeg sqrt p q) with hn
    rw [pointAtArcLength_cons_cons]
    by_cases hjn : j < n
    · rw [List.getElem?_append_left (by simpa using hjn)] at hx
      simp only [List.getElem?_map, List.getElem?_range hjn, Option.map_some',
        Option.some.injEq] at hx
      have h := lt_of_lt_pushCount piece hpiece _ j hjn
      have hj0 : (0 : K) ≤ (j : K) * piece := by positivity
      have hseg : 0 < tempSeg sqrt p q := by linarith
      rw [if_pos (by linarith)]
      rw [← hx]
      congr 1
      have e : (((j : K) + 1) * piece - temp_len) / tempSeg sqrt p q =
          1 - (temp_len + tempSeg sqrt p q - (j : K) * piece - piece) / tempSeg sqrt p q := by
        field_simp; ring
      rw [e]
      rfl
    · have hnj : n ≤ j := not_lt.mp hjn
      rw [List.getElem?_append_right (by simpa using hnj)] at hx
      simp only [List.length_map, List.length_range] at hx
      have ha1 := pushCount_le piece hpiece (temp_len + tempSeg sqrt p q)
      rw [← hn] at ha1
      have hcast : ((j : K) + 1) = ((j - n : ℕ) : K) + 1 + (n : K) := by
        rw [Nat.cast_sub hnj]; ring
      have hle : (n : K) * piece ≤ (j : K) * piece :=
        mul_le_mul_of_nonneg_right (by exact_mod_cast hnj) hpiece.le
      rw [if_neg (by linarith)]
      have := ih q _ ha1 (j - n) x hx
      rw [← this]
      congr 1
      rw [hcast]; ring

end PosNodes

/-! ## Evaluation of the concrete scenario; counting -/
section Eval
variable {K : Type} [LinearOrderedField K]

theorem vec3_sub_def (a b : Vector3d K) : a - b = ⟨a.x - b.x, a.y - b.y, a.z - b.z⟩ := rfl

theorem vec3_add_def (a b : Vector3d K) : a + b = ⟨a.x + b.x, a.y + b.y, a.z + b.z⟩ := rfl

theorem vec3_smul_def (c : K) (a : Vector3d K) : c • a = ⟨c * a.x, c * a.y, c * a.z⟩ := rfl

theorem vec2_sub_def (a b : Vector2d K) : a - b = ⟨a.x - b.x, a.y - b.y⟩ := rfl

theorem vec2_add_def (a b : Vector2d K) : a + b = ⟨a.x + b.x, a.y + b.y⟩ := rfl

theorem vec2_smul_def (c : K) (a : Vector2d K) : c • a = ⟨c * a.x, c * a.y⟩ := rfl

theorem whilePush_of_lt {α : Type} [FloorRing K] (piece : K) (hpiece : 0 < piece)
    (node : K → α) (temp_len : K) (nodes : List α) (h : piece < temp_len) :
    whilePush piece hpiece node temp_len nodes =
      whilePush piece hpiece node (temp_len - piece) (nodes ++ [node temp_len]) := by
  rw [whilePush, if_pos h]

theorem whilePush_of_not_lt {α : Type} [FloorRing K] (piece : K) (hpiece : 0 < piece)
    (node : K → α) (temp_len : K) (nodes : List α) (h : temp_len ≤ piece) :
    whilePush piece hpiece node temp_len nodes = (temp_len, nodes) := by
  rw [whilePush, if_neg (not_lt.mpr h)]

end Eval

/-- The unit segments of the concrete scenario have length 1. -/
theorem tempSeg_unit (a b : ℝ) (h : b - a = 1) (z w : ℝ) :
    tempSeg Real.sqrt ⟨a, 0, z⟩ ⟨b, 0, w⟩ = 1 := by
  simp [tempSeg, Vector2d.norm, Vector3d.head2, vec3_sub_def, h]

/-- The concrete scenario: path `[(0,0), (1,0), (2,0), (3,0)]`, all headings `0`,
`piece_len = 1.0`, `yaw_piece_times = 2`. -/
theorem resample_scenario :
    resample Real.sqrt 1 2 one_pos two_pos [⟨0, 0, 0⟩, ⟨1, 0, 0⟩, ⟨2, 0, 0⟩, ⟨3, 0, 0⟩] =
      ⟨1 / 2, 1, 3, [⟨1, 0⟩, ⟨2, 0⟩], [0, 0, 0, 0, 0]⟩ := by
  simp only [resample, resampleFrom, ResampleState.init]
  rw [tempSeg_unit 0 1 (by norm_num), tempSeg_unit 1 2 (by norm_num),
    tempSeg_unit 2 3 (by norm_num)]
  norm_num
  simp (disch := norm_num) [whilePush_of_lt, whilePush_of_not_lt]
  simp [xyNode, yawNode, Vector3d.head2, vec3_add_def, vec3_sub_def,
    vec3_smul_def]
  norm_num

section CountLemmas
variable {K : Type} [LinearOrderedField K] [FloorRing K]

end CountLemmas

/-! ## Path-level statements -/
section ResampleClaims
variable {K : Type} [LinearOrderedField K] [FloorRing K]

theorem channel_pos_nodes (sqrt : K → K) (piece : K) (hpiece : 0 < piece)
    (path : List (Vector3d K)) (j : ℕ) (x : Vector2d K)
    (hx : (channel sqrt piece hpiece (fun p q seg len => xyNode p q seg piece len)
      path).2[j]? = some x) :
    pointAtArcLength sqrt (path.map Vector3d.head2) (((j : K) + 1) * piece) = some x := by
  cases path with
  | nil => simp [channel] at hx
  | cons p rest =>
    have := channelFrom_pos_nodes sqrt piece hpiece rest p 0 hpiece.le j x hx
    simpa using this

theorem channel_acc_bounds {α : Type} (sqrt : K → K) (hs : ∀ x, 0 ≤ sqrt x) (piece : K)
    (hpiece : 0 < piece) (node : Vector3d K → Vector3d K → K → K → α)
    (path : List (Vector3d K)) :
    0 ≤ (channel sqrt piece hpiece node path).1 ∧
      (channel sqrt piece hpiece node path).1 ≤ piece := by
  cases path with
  | nil => simp [channel, hpiece.le]
  | cons p rest =>
    obtain ⟨_, e2, e3, _⟩ := channelFrom_inv sqrt hs piece hpiece node rest p 0 le_rfl hpiece.le
    exact ⟨e2, e3⟩

theorem channel_entries (sqrt : K → K) (piece : K) (hpiece : 0 < piece)
    (path : List (Vector3d K)) :
    ∀ e ∈ (channel sqrt piece hpiece Entry.mk path).2,
      e.temp_seg = tempSeg sqrt e.p e.q ∧ 0 < e.temp_seg ∧ 0 ≤ e.t piece ∧ e.t piece < 1 := by
  intro e he
  cases path with
  | nil => simp [channel] at he
  | cons p rest =>
    obtain ⟨h1, h2, h3, h4⟩ := channelFrom_entries sqrt piece hpiece rest p 0 hpiece.le e he
    refine ⟨h1, h2, ?_, ?_⟩
    · unfold Entry.t
      rw [sub_nonneg, div_le_one h2]
      exact h4
    · unfold Entry.t
      have : 0 < (e.temp_len - piece) / e.temp_seg := div_pos (by linarith) h2
      linarith

theorem resampleFrom_append (sqrt : K → K) (piece_len yaw_piece_times : K)
    (hpl : 0 < piece_len) (hypt : 0 < yaw_piece_times) (l₁ : List (Vector3d K)) :
    ∀ (p : Vector3d K) (l₂ : List (Vector3d K)) (s : ResampleState K),
      resampleFrom sqrt piece_len yaw_piece_times hpl hypt p (l₁ ++ l₂) s =
        resampleFrom sqrt piece_len yaw_piece_times hpl hypt ((p :: l₁).getLast (by simp)) l₂
          (resampleFrom sqrt piece_len yaw_piece_times hpl hypt p l₁ s) := by
  induction l₁ with
  | nil => intro p l₂ s; simp [resampleFrom]
  | cons q l₁ ih =>
    intro p l₂ s
    simp only [List.cons_append, resampleFrom, List.getLast_cons_cons]
    exact ih _ _ _

end ResampleClaims

/-! ## The resampling loop: claims C2, C3, C5, C9 and the exact-arithmetic statements -/
section ResampleTheorems
variable {K : Type} [LinearOrderedField K] [FloorRing K]

/-- C3 (counterexample): in the concrete scenario the yaw pass does not emit the
three-element list `[0.0, 0.0, 0.0]`. -/
theorem resample_scenario_yaw_ne :
    (resample Real.sqrt 1 2 one_pos two_pos
        [⟨0, 0, 0⟩, ⟨1, 0, 0⟩, ⟨2, 0, 0⟩, ⟨3, 0, 0⟩]).inner_yaw_node ≠ [0, 0, 0] := by
  rw [resample_scenario]
  simp

/-- C3 (amended): for the path `[(0,0), (1,0), (2,0), (3,0)]` with all headings 0,
`piece_len = 1.0` and `yaw_piece_times = 2`, the yaw pass emits exactly the five-element
list `[0.0, 0.0, 0.0, 0.0, 0.0]` (nodes at arc lengths 0.5, 1.0, 1.5, 2.0, 2.5). -/
theorem resample_scenario_yaw :
    (resample Real.sqrt 1 2 one_pos two_pos
        [⟨0, 0, 0⟩, ⟨1, 0, 0⟩, ⟨2, 0, 0⟩, ⟨3, 0, 0⟩]).inner_yaw_node = [0, 0, 0, 0, 0] := by
  rw [resample_scenario]

/-- In exact arithmetic (for `double` the accumulator can keep a rounding residue above
`piece_len`, as with one unit segment and `piece_len = 0.2`, and a node is then pushed at
the final sample): the `j`-th position node emitted by the resampling loop (`j = 1, 2, ...`, here
index `j - 1`) is the point of the polyline at cumulative arc length `j * piece_len` from
the first sample, and that arc length is strictly between 0 and the total length of the
path, so no node lies at or beyond the final sample. -/
theorem resample_node_placement_exact (sqrt : K → K) (hs : ∀ x, 0 ≤ sqrt x)
    (piece_len yaw_piece_times : K) (hpl : 0 < piece_len) (hypt : 0 < yaw_piece_times)
    (path : List (Vector3d K)) (j : ℕ)
    (hj : j < (resample sqrt piece_len yaw_piece_times hpl hypt path).inner_xy_node.length) :
    0 < ((j : K) + 1) * piece_len ∧
    ((j : K) + 1) * piece_len < polylineLength sqrt (path.map Vector3d.head2) ∧
    pointAtArcLength sqrt (path.map Vector3d.head2) (((j : K) + 1) * piece_len) =
      some ((resample sqrt piece_len yaw_piece_times hpl hypt path).inner_xy_node[j]) := by
  have hj' : j < (channel sqrt piece_len hpl
      (fun p q seg len => xyNode p q seg piece_len len) path).2.length := by
    rw [resample_eq] at hj; exact hj
  refine ⟨by positivity, (channel_count sqrt hs piece_len hpl _ path j).mp hj', ?_⟩
  apply channel_pos_nodes sqrt piece_len hpl path j
  rw [List.getElem?_eq_getElem hj']
  simp only [resample_eq]

/-- The scenario: path `[(0,0), (1,0), (2,0), (3,0)]` with `piece_len = 1` gives
exactly the position nodes `[(1,0), (2,0)]`; the second one is the point at arc length 2. -/
theorem resample_node_placement_exact_scenario :
    (∀ x, 0 ≤ Real.sqrt x) ∧
    (resample Real.sqrt 1 2 one_pos two_pos
        [⟨0, 0, 0⟩, ⟨1, 0, 0⟩, ⟨2, 0, 0⟩, ⟨3, 0, 0⟩]).inner_xy_node = [⟨1, 0⟩, ⟨2, 0⟩] ∧
    1 < (resample Real.sqrt 1 2 one_pos two_pos
        [⟨0, 0, 0⟩, ⟨1, 0, 0⟩, ⟨2, 0, 0⟩, ⟨3, 0, 0⟩]).inner_xy_node.length ∧
    (0 : ℝ) < (((1 : ℕ) : ℝ) + 1) * 1 ∧
    (((1 : ℕ) : ℝ) + 1) * 1 < polylineLength Real.sqrt
      ([(⟨0, 0, 0⟩ : Vector3d ℝ), ⟨1, 0, 0⟩, ⟨2, 0, 0⟩, ⟨3, 0, 0⟩].map Vector3d.head2) ∧
    pointAtArcLength Real.sqrt
        ([(⟨0, 0, 0⟩ : Vector3d ℝ), ⟨1, 0, 0⟩, ⟨2, 0, 0⟩, ⟨3, 0, 0⟩].map Vector3d.head2)
        ((((1 : ℕ) : ℝ) + 1) * 1) =
      (resample Real.sqrt 1 2 one_pos two_pos
        [⟨0, 0, 0⟩, ⟨1, 0, 0⟩, ⟨2, 0, 0⟩, ⟨3, 0, 0⟩]).inner_xy_node[1]? := by
  have hj : 1 < (resample Real.sqrt 1 2 one_pos two_pos
      [⟨0, 0, 0⟩, ⟨1, 0, 0⟩, ⟨2, 0, 0⟩, ⟨3, 0, 0⟩]).inner_xy_node.length := by
    rw [resample_scenario]; decide
  have h := resample_node_placement_exact Real.sqrt Real.sqrt_nonneg 1 2 one_pos two_pos
    [⟨0, 0, 0⟩, ⟨1, 0, 0⟩, ⟨2, 0, 0⟩, ⟨3, 0, 0⟩] 1 hj
  refine ⟨Real.sqrt_nonneg, by rw [resample_scenario], hj, h.1, h.2.1, ?_⟩
  rw [h.2.2, List.getElem?_eq_getElem hj]

/-- C9: `total_len` computed by the resampling loop is the sum of the Euclidean lengths of
the consecutive segments of the positions `(x, y)` alone (the headings do not enter), and
`total_time = total_len / mean_vel * init_time_times`, so multiplying `init_time_times` by
`c` multiplies `total_time` by `c` and multiplying `mean_vel` by `c` divides it by `c`. -/
theorem resample_total_len_time (sqrt : K → K) (piece_len yaw_piece_times : K)
    (hpl : 0 < piece_len) (hypt : 0 < yaw_piece_times) (path : List (Vector3d K))
    (mean_vel init_time_times c : K) :
    (resample sqrt piece_len yaw_piece_times hpl hypt path).total_len =
      polylineLength sqrt (path.map Vector3d.head2) ∧
    totalTime (resample sqrt piece_len yaw_piece_times hpl hypt path).total_len mean_vel
        init_time_times =
      polylineLength sqrt (path.map Vector3d.head2) / mean_vel * init_time_times ∧
    totalTime (resample sqrt piece_len yaw_piece_times hpl hypt path).total_len mean_vel
        (c * init_time_times) =
      c * totalTime (resample sqrt piece_len yaw_piece_times hpl hypt path).total_len mean_vel
        init_time_times ∧
    totalTime (resample sqrt piece_len yaw_piece_times hpl hypt path).total_len
        (c * mean_vel) init_time_times =
      totalTime (resample sqrt piece_len yaw_piece_times hpl hypt path).total_len mean_vel
        init_time_times / c := by
  refine ⟨by rw [resample_eq], by rw [resample_eq]; rfl, ?_, ?_⟩
  · unfold totalTime; ring
  · unfold totalTime
    rw [mul_comm c mean_vel, ← div_div]
    ring

/-- The scenario of C9: path `[(0,0), (1,0), (2,0), (3,0)]` gives `total_len = 3.0`; with
`mean_vel = 2` and `init_time_times = 5` the duration is `3 / 2 * 5`. -/
theorem resample_total_len_time_witness :
    (0 : ℝ) < 1 ∧ (0 : ℝ) < 2 ∧
    (resample Real.sqrt 1 2 one_pos two_pos
        [⟨0, 0, 0⟩, ⟨1, 0, 0⟩, ⟨2, 0, 0⟩, ⟨3, 0, 0⟩]).total_len = 3 ∧
    polylineLength Real.sqrt
      ([(⟨0, 0, 0⟩ : Vector3d ℝ), ⟨1, 0, 0⟩, ⟨2, 0, 0⟩, ⟨3, 0, 0⟩].map Vector3d.head2) = 3 ∧
    totalTime (resample Real.sqrt 1 2 one_pos two_pos
        [⟨0, 0, 0⟩, ⟨1, 0, 0⟩, ⟨2, 0, 0⟩, ⟨3, 0, 0⟩]).total_len 2 5 = 3 / 2 * 5 := by
  have h := resample_total_len_time Real.sqrt 1 2 one_pos two_pos
    [⟨0, 0, 0⟩, ⟨1, 0, 0⟩, ⟨2, 0, 0⟩, ⟨3, 0, 0⟩] 2 5 1
  have e : (resample Real.sqrt 1 2 one_pos two_pos
      [⟨0, 0, 0⟩, ⟨1, 0, 0⟩, ⟨2, 0, 0⟩, ⟨3, 0, 0⟩]).total_len = 3 := by
    rw [resample_scenario]
  refine ⟨one_pos, two_pos, e, ?_, ?_⟩
  · rw [← h.1, e]
  · rw [h.2.1, ← h.1, e]

/-- In exact arithmetic (for `double` a rounding residue can give `t = 1.0`, and a segment
of infinite length keeps the inner loop running): at the end of every segment iteration (the state after the first `k` segments of
`init_path` is `resample` of its first `k + 1` samples, `resampleFrom_append`) both
accumulators lie in `[0, piece]` for their resolution `piece`; the nodes are the images of
the loop-body entries, and at every entry into the body of an inner `while` loop the
segment has positive length `temp_seg` (no division by zero) and the interpolation
parameter `t = 1 - (temp_len - piece) / temp_seg` satisfies `0 ≤ t < 1`. The inner loops
terminate: `whilePush` is a total function. -/
theorem resample_accumulators_exact (sqrt : K → K) (hs : ∀ x, 0 ≤ sqrt x)
    (piece_len yaw_piece_times : K) (hpl : 0 < piece_len) (hypt : 0 < yaw_piece_times)
    (path : List (Vector3d K)) :
    (0 ≤ (resample sqrt piece_len yaw_piece_times hpl hypt path).temp_len_pos ∧
      (resample sqrt piece_len yaw_piece_times hpl hypt path).temp_len_pos ≤ piece_len) ∧
    (0 ≤ (resample sqrt piece_len yaw_piece_times hpl hypt path).temp_len_yaw ∧
      (resample sqrt piece_len yaw_piece_times hpl hypt path).temp_len_yaw ≤
        piece_len / yaw_piece_times) ∧
    ((resample sqrt piece_len yaw_piece_times hpl hypt path).inner_xy_node =
        (channel sqrt piece_len hpl Entry.mk path).2.map
          (fun e => (e.p + e.t piece_len • (e.q - e.p)).head2) ∧
      ∀ e ∈ (channel sqrt piece_len hpl Entry.mk path).2,
        e.temp_seg = tempSeg sqrt e.p e.q ∧ 0 < e.temp_seg ∧
          0 ≤ e.t piece_len ∧ e.t piece_len < 1) ∧
    ((resample sqrt piece_len yaw_piece_times hpl hypt path).inner_yaw_node =
        (channel sqrt (piece_len / yaw_piece_times) (div_pos hpl hypt) Entry.mk path).2.map
          (fun e => e.p.z + e.t (piece_len / yaw_piece_times) * (e.q - e.p).z) ∧
      ∀ e ∈ (channel sqrt (piece_len / yaw_piece_times) (div_pos hpl hypt) Entry.mk path).2,
        e.temp_seg = tempSeg sqrt e.p e.q ∧ 0 < e.temp_seg ∧
          0 ≤ e.t (piece_len / yaw_piece_times) ∧ e.t (piece_len / yaw_piece_times) < 1) := by
  simp only [resample_eq]
  refine ⟨channel_acc_bounds sqrt hs _ hpl _ path,
    channel_acc_bounds sqrt hs _ (div_pos hpl hypt) _ path,
    ⟨?_, channel_entries sqrt _ hpl path⟩, ⟨?_, channel_entries sqrt _ (div_pos hpl hypt) path⟩⟩
  · exact congrArg Prod.snd (channel_map
      (fun e : Entry K => (e.p + e.t piece_len • (e.q - e.p)).head2) sqrt piece_len hpl
      Entry.mk path)
  · exact congrArg Prod.snd (channel_map
      (fun e : Entry K => e.p.z + e.t (piece_len / yaw_piece_times) * (e.q - e.p).z) sqrt
      (piece_len / yaw_piece_times) (div_pos hpl hypt) Entry.mk path)

theorem resample_accumulators_exact_scenario :
    (∀ x, 0 ≤ Real.sqrt x) ∧
    (resample Real.sqrt 1 2 one_pos two_pos
        [⟨0, 0, 0⟩, ⟨1, 0, 0⟩, ⟨2, 0, 0⟩, ⟨3, 0, 0⟩]).temp_len_pos = 1 ∧
    (resample Real.sqrt 1 2 one_pos two_pos
        [⟨0, 0, 0⟩, ⟨1, 0, 0⟩, ⟨2, 0, 0⟩, ⟨3, 0, 0⟩]).temp_len_yaw = 1 / 2 ∧
    (0 ≤ (resample Real.sqrt 1 2 one_pos two_pos
        [⟨0, 0, 0⟩, ⟨1, 0, 0⟩, ⟨2, 0, 0⟩, ⟨3, 0, 0⟩]).temp_len_pos ∧
      (resample Real.sqrt 1 2 one_pos two_pos
        [⟨0, 0, 0⟩, ⟨1, 0, 0⟩, ⟨2, 0, 0⟩, ⟨3, 0, 0⟩]).temp_len_pos ≤ 1) ∧
    (0 ≤ (resample Real.sqrt 1 2 one_pos two_pos
        [⟨0, 0, 0⟩, ⟨1, 0, 0⟩, ⟨2, 0, 0⟩, ⟨3, 0, 0⟩]).temp_len_yaw ∧
      (resample Real.sqrt 1 2 one_pos two_pos
        [⟨0, 0, 0⟩, ⟨1, 0, 0⟩, ⟨2, 0, 0⟩, ⟨3, 0, 0⟩]).temp_len_yaw ≤ 1 / 2) ∧
    ∀ e ∈ (channel Real.sqrt 1 one_pos Entry.mk
        [⟨0, 0, 0⟩, ⟨1, 0, 0⟩, ⟨2, 0, 0⟩, ⟨3, 0, 0⟩]).2,
      0 < e.temp_seg ∧ 0 ≤ e.t 1 ∧ e.t 1 < 1 := by
  have h := resample_accumulators_exact Real.sqrt Real.sqrt_nonneg 1 2 one_pos two_pos
    [⟨0, 0, 0⟩, ⟨1, 0, 0⟩, ⟨2, 0, 0⟩, ⟨3, 0, 0⟩]
  refine ⟨Real.sqrt_nonneg, by rw [resample_scenario], by rw [resample_scenario],
    h.1, h.2.1, fun e he => (h.2.2.1.2 e he).2⟩

end ResampleTheorems

/-! ## `readPathFromCSV` in exact arithmetic -/
section Heading
variable {K : Type} [LinearOrderedField K]

/-- On a straight path the sample two steps ahead is again the sample plus a positive
multiple of the direction. -/
theorem straight_two (d : Vector2d K) (path_xy : List (Vector2d K))
    (hstraight : ∀ (i : ℕ) (h : i + 1 < path_xy.length),
      ∃ c : K, 0 < c ∧ path_xy[i + 1] = path_xy[i] + c • d)
    (i : ℕ) (h : i + 2 < path_xy.length) :
    ∃ c : K, 0 < c ∧ path_xy[i + 2] = path_xy[i] + c • d := by
  obtain ⟨c1, hc1, e1⟩ := hstraight i (by omega)
  obtain ⟨c2, hc2, e2⟩ := hstraight (i + 1) (by omega)
  refine ⟨c1 + c2, by positivity, ?_⟩
  rw [e2, e1]
  ext
  · simp only [vec2_add_def, vec2_smul_def]; ring
  · simp only [vec2_add_def, vec2_smul_def]; ring

theorem atan2_diff (atan2 : K → K → K)
    (hat : ∀ c y x : K, 0 < c → atan2 (c * y) (c * x) = atan2 y x)
    (d a b : Vector2d K) (h : ∃ c : K, 0 < c ∧ b = a + c • d) :
    atan2 (b - a).y (b - a).x = atan2 d.y d.x := by
  obtain ⟨c, hc, rfl⟩ := h
  simp only [vec2_add_def, vec2_smul_def, vec2_sub_def, add_sub_cancel_left]
  exact hat c d.y d.x hc

/-- In exact arithmetic with a single zero (for `double` the differences round, and
signed zeros on the branch cut give headings `-π` and `+π` on one straight path): for a
straight-line path (every sample is the previous one plus a strictly positive
multiple of one direction vector `d`) of at least 3 samples (2 suffice), the heading stage
of `readPathFromCSV` returns the input positions in the same order, one pose per sample,
and every heading (forward difference at index 0, central difference inside, backward
difference at the end) equals `atan2(d.y, d.x)`. `atan2` enters through its positive
homogeneity, which the real `atan2` has. -/
theorem readPathFromCSV_straight_exact (atan2 : K → K → K)
    (hat : ∀ c y x : K, 0 < c → atan2 (c * y) (c * x) = atan2 y x)
    (d : Vector2d K) (path_xy : List (Vector2d K)) (hn : 3 ≤ path_xy.length)
    (hstraight : ∀ (i : ℕ) (h : i + 1 < path_xy.length),
      ∃ c : K, 0 < c ∧ path_xy[i + 1] = path_xy[i] + c • d) :
    readPathFromCSV atan2 path_xy =
      some (path_xy.map fun p => (⟨p.x, p.y, atan2 d.y d.x⟩ : Vector3d K)) := by
  have h2 : 2 ≤ path_xy.length := by omega
  unfold readPathFromCSV
  rw [dif_pos h2]
  simp only [Option.some.injEq]
  apply List.ext_getElem
  · simp; omega
  · intro i h1 h2'
    simp only [List.getElem_map]
    simp only [List.length_append, List.length_ofFn, List.length_singleton,
      List.length_cons, List.length_nil] at h1
    rcases Nat.eq_zero_or_pos i with rfl | hpos
    · simp only [List.singleton_append, List.cons_append, List.getElem_cons_zero]
      rw [atan2_diff atan2 hat d _ _ (hstraight 0 (by omega))]
    · by_cases hlast : i = path_xy.length - 1
      · subst hlast
        rw [List.getElem_append_right (by simp; omega)]
        simp only [List.length_append, List.length_ofFn, List.length_singleton,
          List.getElem_singleton]
        have := hstraight (path_xy.length - 2) (by omega)
        have e : path_xy.length - 2 + 1 = path_xy.length - 1 := by omega
        simp only [e] at this
        rw [atan2_diff atan2 hat d _ _ this]
      · rw [List.getElem_append_left (by simp; omega)]
        rw [List.getElem_append_right (by simp; omega)]
        simp only [List.getElem_ofFn, List.length_singleton]
        have := straight_two d path_xy hstraight (i - 1) (by omega)
        have e1 : i - 1 + 1 = i := by omega
        have e2 : i - 1 + 2 = i + 1 := by omega
        simp only [e1, e2, Nat.add_sub_cancel] at this ⊢
        rw [atan2_diff atan2 hat d _ _ this]

end Heading

/-- The real `atan2`, as the argument of the complex number `x + y i`, is positively
homogeneous. -/
theorem real_atan2_homogeneous (c y x : ℝ) (hc : 0 < c) :
    Complex.arg ⟨c * x, c * y⟩ = Complex.arg ⟨x, y⟩ := by
  have e : (⟨c * x, c * y⟩ : ℂ) = (c : ℂ) * ⟨x, y⟩ := by
    apply Complex.ext <;> simp
  rw [e, Complex.arg_real_mul _ hc]

/-- The path `(0,0), (1,2), (3,6)` along `d = (1,2)` with the real `atan2`: three poses, the
same positions, every heading `atan2(2, 1)`. -/
theorem readPathFromCSV_straight_exact_scenario :
    readPathFromCSV (fun y x : ℝ => Complex.arg ⟨x, y⟩) [⟨0, 0⟩, ⟨1, 2⟩, ⟨3, 6⟩] =
      some [⟨0, 0, Complex.arg ⟨1, 2⟩⟩, ⟨1, 2, Complex.arg ⟨1, 2⟩⟩,
        ⟨3, 6, Complex.arg ⟨1, 2⟩⟩] := by
  have h := readPathFromCSV_straight_exact (fun y x : ℝ => Complex.arg ⟨x, y⟩)
    (fun c y x hc => real_atan2_homogeneous c y x hc) ⟨1, 2⟩ [⟨0, 0⟩, ⟨1, 2⟩, ⟨3, 6⟩]
    (by decide)
    (by
      intro i hi
      have hi' : i + 1 < 3 := hi
      have : i = 0 ∨ i = 1 := by omega
      rcases this with rfl | rfl
      · exact ⟨1, one_pos, by ext <;> simp [vec2_add_def, vec2_smul_def]⟩
      · refine ⟨2, two_pos, ?_⟩
        ext <;> simp [vec2_add_def, vec2_smul_def] <;> norm_num)
  simpa using h

/-! ## The gate -/

/-- C8: a goal trigger received while `in_plan` is true, or while the map is not ready,
does not pass the gate, calls no optimizer and leaves the state (in particular `in_plan`)
unchanged. Consequently, when a first trigger has passed the gate and a second trigger
arrives before the first pipeline has reset `in_plan` (between the gate and the optimizer
call, or between the optimizer call and the reset), the two triggers together produce
exactly one optimizer invocation. -/
theorem rcvWpsCallBack_single_flight (s : PlanState) (mapReady pathEmpty : Bool) :
    ((s.in_plan = true ∨ mapReady = false) →
      gate mapReady s = (false, s) ∧ rcvWpsCallBack mapReady pathEmpty s = s) ∧
    (s.in_plan = false →
      gate true s = (true, { s with in_plan := true }) ∧
      (finish (runOptimizer false
          (rcvWpsCallBack mapReady pathEmpty (gate true s).2)).2).optimizer_calls
        = s.optimizer_calls + 1 ∧
      (finish (rcvWpsCallBack mapReady pathEmpty
          (runOptimizer false (gate true s).2).2)).optimizer_calls
        = s.optimizer_calls + 1) := by
  obtain ⟨ip, n⟩ := s
  cases ip <;> cases mapReady <;> cases pathEmpty <;>
    simp [gate, rcvWpsCallBack, runOptimizer, finish]

theorem rcvWpsCallBack_single_flight_witness :
    rcvWpsCallBack true false ⟨true, 4⟩ = ⟨true, 4⟩ ∧
    rcvWpsCallBack false false ⟨false, 4⟩ = ⟨false, 4⟩ ∧
    rcvWpsCallBack true false ⟨false, 4⟩ = ⟨false, 5⟩ ∧
    (finish (runOptimizer false
        (rcvWpsCallBack true false (gate true ⟨false, 4⟩).2)).2).optimizer_calls = 4 + 1 :=
  ⟨((rcvWpsCallBack_single_flight ⟨true, 4⟩ true false).1 (Or.inl rfl)).2,
    ((rcvWpsCallBack_single_flight ⟨false, 4⟩ false false).1 (Or.inr rfl)).2,
    by decide,
    ((rcvWpsCallBack_single_flight ⟨false, 4⟩ true false).2 rfl).2.1⟩

end UnevenPlanner
